import Mathlib

/-!
Verification of the diagram layout engine in
`src/frontend/components/ChatMessage.tsx` (AdvancedChart and its four
from-scratch SVG layout algorithms: `squarify`/`renderTreemap`,
`renderHeatmap`, `renderSankey`, `renderSunburst`).

Modelling conventions:
* JavaScript `number` arithmetic is modelled exactly over `ℚ`; claims about
  float tolerance become exact equalities.
* A JS object field that may be `undefined` is modelled as `Option`; the JS
  truthiness test `if (d.source)` becomes a match on the option.
* `[...new Set(xs)]` (insertion order, first occurrence kept) is modelled by
  `uniqueInOrder`.
* The constant `2 * Math.PI` of `renderSunburst` is an opaque scalar the
  algorithm is linear in; it is passed as a parameter `tau`.
-/

namespace AlulaCharts

/-- One `ChartDataItem` (ChatMessage.tsx, interface at line 622):
`{ name, value, category?, source?, target?, row?, col? }`.
Fields irrelevant to layout (`name_ar`, `color`, `children`) are omitted. -/
structure Datum where
  name : String
  value : ℚ
  category : Option String := none
  source : Option String := none
  target : Option String := none
  row : Option String := none
  col : Option String := none
deriving DecidableEq

/-- The model of `Array.prototype.indexOf` restricted to present elements:
index of the first occurrence of `a` (the `-1` absent case is always guarded
by a membership test where this is used). -/
def indexIn {α : Type} [DecidableEq α] (a : α) : List α → Nat
  | [] => 0
  | b :: l => if a = b then 0 else indexIn a l + 1

/-- Insertion-ordered deduplication: the model of `[...new Set(xs)]`
(first occurrence of each element kept, in first-seen order). -/
def uniqueInOrder {α : Type} [DecidableEq α] : List α → List α
  | [] => []
  | a :: l => a :: uniqueInOrder (l.filter (fun b => b ≠ a))
termination_by l => l.length
decreasing_by
  simp only [List.length_cons]
  exact Nat.lt_succ_of_le (List.length_filter_le _ _)

/-- One step of the stable insertion model of
`[...data].sort((a, b) => b.value - a.value)`: insert `d` before the first
element whose value is `≤ d.value` (so equal values keep original order). -/
def insertDesc (d : Datum) : List Datum → List Datum
  | [] => [d]
  | e :: l => if e.value ≤ d.value then d :: e :: l else e :: insertDesc d l

/-- `[...data].sort((a, b) => b.value - a.value)`: stable descending sort
by `value`, modelled as insertion sort. -/
def sortDesc (data : List Datum) : List Datum :=
  data.foldr insertDesc []

/-- One output rectangle of `squarify` (the input datum extended with
`{ x, y, width, height }`). -/
structure TileRect where
  name : String
  value : ℚ
  x : ℚ
  y : ℚ
  w : ℚ
  h : ℚ
deriving DecidableEq

/-- The loop body of `squarify` (ChatMessage.tsx lines 1242–1265): walk the
sorted items keeping a remaining rectangle `(x, y, remW, remH)` and remaining
value `remV`; each item takes fraction `value / remV`; if
`remainingWidth > remainingHeight` cut a full-height column of width
`remW * frac` from the left, else cut a full-width row of height
`remH * frac` from the top. -/
def squarifyGo : List Datum → ℚ → ℚ → ℚ → ℚ → ℚ → List TileRect
  | [], _, _, _, _, _ => []
  | d :: rest, x, y, remW, remH, remV =>
    let frac := d.value / remV
    if remH < remW then
      let iw := remW * frac
      ⟨d.name, d.value, x, y, iw, remH⟩ ::
        squarifyGo rest (x + iw) y (remW - iw) remH (remV - d.value)
    else
      let ih := remH * frac
      ⟨d.name, d.value, x, y, remW, ih⟩ ::
        squarifyGo rest x (y + ih) remW (remH - ih) (remV - d.value)

/-- `squarify(data, width, height, totalValue)` (ChatMessage.tsx line 1233):
sort descending by value, then run the cutting loop on the full rectangle. -/
def squarify (data : List Datum) (w h totalValue : ℚ) : List TileRect :=
  squarifyGo (sortDesc data) 0 0 w h totalValue

/-- `renderTreemap`'s call into `squarify` (line 869): `totalValue` is the sum
of all item values; `w`, `h` here are the inner width/height after margins. -/
def treemapRects (data : List Datum) (w h : ℚ) : List TileRect :=
  squarify data w h ((data.map Datum.value).sum)

/-- One wedge of `renderSunburst`: start/end angles of the annular arc. -/
structure Wedge where
  name : String
  value : ℚ
  startAngle : ℚ
  endAngle : ℚ
deriving DecidableEq

/-- The loop of `renderSunburst` (lines 1160–1206): items in input order, a
running angle starting at `0`; each item spans
`(value / totalValue) * tau` where `tau` stands for `2 * Math.PI`. -/
def sunburstGo (tau total : ℚ) : ℚ → List Datum → List Wedge
  | _, [] => []
  | cur, d :: rest =>
    let a := d.value / total * tau
    ⟨d.name, d.value, cur, cur + a⟩ :: sunburstGo tau total (cur + a) rest

/-- `renderSunburst`'s wedge list: `totalValue` is the sum of all values,
running angle starts at 0. -/
def sunburstWedges (tau : ℚ) (data : List Datum) : List Wedge :=
  sunburstGo tau ((data.map Datum.value).sum) 0 data

/-- Row key of `renderHeatmap` (line 934/952):
`String(d.row || d.category || 'Row')`. -/
def rowKey (d : Datum) : String := d.row.getD (d.category.getD "Row")

/-- Column key of `renderHeatmap` (line 935/953): `String(d.col || d.name)`. -/
def colKey (d : Datum) : String := d.col.getD d.name

/-- Distinct row keys in first-seen order (line 934). -/
def heatRows (data : List Datum) : List String := uniqueInOrder (data.map rowKey)

/-- Distinct column keys in first-seen order (line 935). -/
def heatCols (data : List Datum) : List String := uniqueInOrder (data.map colKey)

/-- `Math.min(...values)` over a nonempty list (line 942); the empty case is
never reached by a rendered cell and is given the junk value 0. -/
def minV : List ℚ → ℚ
  | [] => 0
  | v :: vs => vs.foldl min v

/-- `Math.max(...values)` over a nonempty list (line 943). -/
def maxV : List ℚ → ℚ
  | [] => 0
  | v :: vs => vs.foldl max v

/-- The denominator `(maxValue - minValue || 1)` of line 961: if the
difference is zero the JS `||` replaces it by 1. -/
def heatDenom (data : List Datum) : ℚ :=
  let diff := maxV (data.map Datum.value) - minV (data.map Datum.value)
  if diff = 0 then 1 else diff

/-- One emitted heatmap cell rectangle: grid indices, position and the
normalized intensity of line 961. -/
structure HeatCell where
  rowIdx : Nat
  colIdx : Nat
  x : ℚ
  y : ℚ
  intensity : ℚ
  value : ℚ
deriving DecidableEq

/-- The cell-emitting loop of `renderHeatmap` (lines 951–971): for each item
look up its row/column index; drop it when `indexOf` gives `-1`
(modelled as the membership guard); otherwise emit the cell rectangle at
`(colIdx * cellWidth, rowIdx * cellHeight)` with intensity
`(value - min) / (max - min || 1)`. -/
def heatCells (data : List Datum) (innerW innerH : ℚ) : List HeatCell :=
  let rows := heatRows data
  let cols := heatCols data
  let cellW := innerW / (cols.length : ℚ)
  let cellH := innerH / (rows.length : ℚ)
  data.filterMap (fun d =>
    if rowKey d ∈ rows ∧ colKey d ∈ cols then
      some ⟨indexIn (rowKey d) rows, indexIn (colKey d) cols,
            (indexIn (colKey d) cols : ℚ) * cellW,
            (indexIn (rowKey d) rows : ℚ) * cellH,
            (d.value - minV (data.map Datum.value)) / heatDenom data,
            d.value⟩
    else none)

/-- Distinct source-node names of `renderSankey` in first-seen order
(lines 1025–1032): every item with a `source` field contributes. -/
def sourceNames (data : List Datum) : List String :=
  uniqueInOrder (data.filterMap Datum.source)

/-- Distinct target-node names in first-seen order (lines 1026–1033). -/
def targetNames (data : List Datum) : List String :=
  uniqueInOrder (data.filterMap Datum.target)

/-- `sourceValues[s]` (lines 1045–1051): total value of all items whose
`source` is `s`. -/
def sourceTotal (data : List Datum) (s : String) : ℚ :=
  ((data.filter (fun d => d.source = some s)).map Datum.value).sum

/-- `targetValues[t]` (lines 1046–1051). -/
def targetTotal (data : List Datum) (t : String) : ℚ :=
  ((data.filter (fun d => d.target = some t)).map Datum.value).sum

/-- `totalSourceValue` (line 1053): sum of `sourceValues` over the distinct
source names. -/
def totalSourceValue (data : List Datum) : ℚ :=
  ((sourceNames data).map (sourceTotal data)).sum

/-- `totalTargetValue` (line 1054). -/
def totalTargetValue (data : List Datum) : ℚ :=
  ((targetNames data).map (targetTotal data)).sum

/-- Height of source node `s` (line 1062):
`(sourceValues[node] / totalSourceValue) * innerHeight`. -/
def sourceNodeHeight (data : List Datum) (innerH : ℚ) (s : String) : ℚ :=
  sourceTotal data s / totalSourceValue data * innerH

/-- Height of target node `t` (line 1069). -/
def targetNodeHeight (data : List Datum) (innerH : ℚ) (t : String) : ℚ :=
  targetTotal data t / totalTargetValue data * innerH

/-- The vertical stacking loop of lines 1060–1072: starting at `y0`, each
node of height `hh` is placed at the running `y`, which then advances by
`hh + gap` (the code uses the fixed gap 5). Returns `(y, height)` pairs. -/
def stackGo (gap y0 : ℚ) : List ℚ → List (ℚ × ℚ)
  | [] => []
  | hh :: t => (y0, hh) :: stackGo gap (y0 + hh + gap) t

/-- The heights of the stacked source nodes, in `sourceNames` order. -/
def sourceHeights (data : List Datum) (innerH : ℚ) : List ℚ :=
  (sourceNames data).map (sourceNodeHeight data innerH)

/-- The heights of the stacked target nodes, in `targetNames` order. -/
def targetHeights (data : List Datum) (innerH : ℚ) : List ℚ :=
  (targetNames data).map (targetNodeHeight data innerH)

/-- `sourcePositions` in list form, in `sourceNames` order (lines 1060–1065). -/
def sourceStack (data : List Datum) (innerH : ℚ) : List (ℚ × ℚ) :=
  stackGo 5 0 (sourceHeights data innerH)

/-- `targetPositions` in list form (lines 1067–1072). -/
def targetStack (data : List Datum) (innerH : ℚ) : List (ℚ × ℚ) :=
  stackGo 5 0 (targetHeights data innerH)

/-- Bottom edge (`y + height`) of the last stacked node; 0 for an empty
stack. -/
def lastBottom (ps : List (ℚ × ℚ)) : ℚ :=
  match ps.getLast? with
  | none => 0
  | some (yv, hh) => yv + hh

/-- `sourcePositions[name]` lookup: position of node `s` in the stack built
over `names`. -/
def lookupPos (names : List String) (stack : List (ℚ × ℚ)) (s : String) :
    Option (ℚ × ℚ) :=
  stack[indexIn s names]?

/-- One rendered sankey link (lines 1075–1097): endpoints' y midpoints and
the stroke thickness `linkHeight = (d.value / sourceValues[d.source]) *
sourcePos.height` of line 1082. -/
structure FlowLink where
  source : String
  target : String
  linkH : ℚ
  sourceY : ℚ
  targetY : ℚ
deriving DecidableEq

/-- The link-rendering loop of `renderSankey` (lines 1075–1097): items
missing `source` or `target`, or whose node position is not found, are
skipped; otherwise a link of thickness `linkHeight` is drawn between
`sourcePos.y + linkHeight/2` and `targetPos.y + linkHeight/2`. -/
def sankeyLinks (data : List Datum) (innerH : ℚ) : List FlowLink :=
  let sn := sourceNames data
  let tn := targetNames data
  let spos := sourceStack data innerH
  let tpos := targetStack data innerH
  data.filterMap (fun d =>
    match d.source, d.target with
    | some s, some t =>
      match lookupPos sn spos s, lookupPos tn tpos t with
      | some (sy, sh), some (ty, _) =>
        let lh := d.value / sourceTotal data s * sh
        some ⟨s, t, lh, sy + lh / 2, ty + lh / 2⟩
      | _, _ => none
    | _, _ => none)

/-- The `AdvancedChartType` union (line 620). -/
inductive ChartKind where
  | treemap
  | heatmap
  | sankey
  | sunburst
  | chord
deriving DecidableEq

/-- The primitive sequence an `AdvancedChart` render produces, one
constructor per layout family. -/
inductive DiagramOutput where
  | rects : List TileRect → DiagramOutput
  | cells : List HeatCell → DiagramOutput
  | links : List FlowLink → DiagramOutput
  | wedges : List Wedge → DiagramOutput
deriving DecidableEq

/-- `renderTreemap` (line 854): margins 10 on each side, then `squarify`
with `totalValue = Σ value`. -/
def renderTreemapModel (data : List Datum) (w h : ℚ) : List TileRect :=
  treemapRects data (w - 20) (h - 20)

/-- `renderHeatmap` (line 922): margins left 60, right 30, top 30,
bottom 30. -/
def renderHeatmapModel (data : List Datum) (w h : ℚ) : List HeatCell :=
  heatCells data (w - 90) (h - 60)

/-- `renderSankey` (line 1013): margins 20 on each side; only `innerHeight`
affects the link geometry modelled here. -/
def renderSankeyModel (data : List Datum) (_w h : ℚ) : List FlowLink :=
  sankeyLinks data (h - 40)

/-- The `switch (type)` dispatch of the render effect (lines 725–740);
the `default` branch falls back to `renderTreemap`, so `chord` renders a
treemap. `tau` stands for the constant `2 * Math.PI` used by
`renderSunburst`. -/
def renderChart (tau : ℚ) (kind : ChartKind) (data : List Datum)
    (w h : ℚ) : DiagramOutput :=
  match kind with
  | .treemap => .rects (renderTreemapModel data w h)
  | .heatmap => .cells (renderHeatmapModel data w h)
  | .sankey => .links (renderSankeyModel data w h)
  | .sunburst => .wedges (sunburstWedges tau data)
  | .chord => .rects (renderTreemapModel data w h)

/-- The whole render effect (lines 716–741): if `data` is empty it returns
early BEFORE clearing the SVG, leaving the prior content in place;
otherwise it clears the SVG and renders the selected chart from scratch. -/
def updateSvg (tau : ℚ) (prior : DiagramOutput) (kind : ChartKind)
    (data : List Datum) (w h : ℚ) : DiagramOutput :=
  if data.isEmpty then prior
  else renderChart tau kind data w h

/-- The value filter the spec attributes to the dispatcher: drop datums with
negative value (non-finiteness is not representable over `ℚ`). -/
def dropNegative (data : List Datum) : List Datum :=
  data.filter (fun d => 0 ≤ d.value)

/-- Two axis-aligned rectangles overlap when their interiors intersect. -/
def overlaps (r s : TileRect) : Prop :=
  r.x < s.x + s.w ∧ s.x < r.x + r.w ∧ r.y < s.y + s.h ∧ s.y < r.y + r.h

/-! ### Concrete example inputs (used to instantiate the theorems) -/

/-- Two equal-valued items: exercises the width/height tie-break. -/
def exTie : List Datum :=
  [{ name := "A", value := 1 }, { name := "B", value := 1 }]

/-- A single item of value 0: a zero-total degenerate input. -/
def exZero : List Datum := [{ name := "A", value := 0 }]

/-- One negative-valued and one positive-valued item. -/
def exNeg : List Datum :=
  [{ name := "A", value := -50 }, { name := "B", value := 100 }]

/-- A two-item, positive-valued treemap input (the spec's Scenario A). -/
def exTreemap : List Datum :=
  [{ name := "A", value := 60 }, { name := "B", value := 40 }]

/-- A 1×2 heatmap input sharing one `category` row. -/
def exHeat : List Datum :=
  [{ name := "m", value := 1, category := some "r" },
   { name := "n", value := 3, category := some "r" }]

/-- A small flow input: two sources `A`, `B` and two targets `X`, `Y`. -/
def exFlow : List Datum :=
  [{ name := "e1", value := 30, source := some "A", target := some "X" },
   { name := "e2", value := 20, source := some "A", target := some "Y" },
   { name := "e3", value := 50, source := some "B", target := some "X" }]

/-! ### Generic list lemmas -/

theorem mem_uniqueInOrder {α : Type} [DecidableEq α] (x : α) :
    ∀ l : List α, x ∈ uniqueInOrder l ↔ x ∈ l
  | [] => by simp [uniqueInOrder]
  | a :: l => by
    rw [uniqueInOrder]
    by_cases hxa : x = a
    · subst hxa; simp
    · have ih := mem_uniqueInOrder x (l.filter (fun b => b ≠ a))
      simp only [List.mem_cons, hxa, false_or]
      rw [ih]
      simp [List.mem_filter, hxa]
termination_by l => l.length
decreasing_by
  simp only [List.length_cons]
  exact Nat.lt_succ_of_le (List.length_filter_le _ _)

theorem indexIn_inj {α : Type} [DecidableEq α] (a b : α) :
    ∀ l : List α, a ∈ l → b ∈ l → indexIn a l = indexIn b l → a = b
  | [], ha, _, _ => absurd ha (List.not_mem_nil a)
  | c :: l, ha, hb, heq => by
    simp only [indexIn] at heq
    by_cases hac : a = c
    · by_cases hbc : b = c
      · exact hac.trans hbc.symm
      · rw [if_pos hac, if_neg hbc] at heq
        exact absurd heq (by omega)
    · by_cases hbc : b = c
      · rw [if_neg hac, if_pos hbc] at heq
        exact absurd heq (by omega)
      · rw [if_neg hac, if_neg hbc] at heq
        have ha' : a ∈ l := by
          rcases List.mem_cons.mp ha with h | h
          · exact absurd h hac
          · exact h
        have hb' : b ∈ l := by
          rcases List.mem_cons.mp hb with h | h
          · exact absurd h hbc
          · exact h
        exact indexIn_inj a b l ha' hb' (by omega)

theorem filter_ne_map {α β : Type} [DecidableEq α] [DecidableEq β]
    (f : α → β) (a : α) :
    ∀ l : List α, (∀ c ∈ l, f c = f a → c = a) →
      (l.map f).filter (fun b => b ≠ f a) = (l.filter (fun b => b ≠ a)).map f
  | [], _ => by simp
  | c :: l, h => by
    have hrest := filter_ne_map f a l (fun d hd => h d (List.mem_cons_of_mem _ hd))
    simp only [ne_eq, decide_not] at hrest
    simp only [List.map_cons, List.filter_cons, ne_eq, decide_not]
    by_cases hca : c = a
    · subst hca
      simp [hrest]
    · have hfca : f c ≠ f a := fun hf => hca (h c (List.mem_cons_self c l) hf)
      simp [hca, hfca, hrest]

theorem uniqueInOrder_map {α β : Type} [DecidableEq α] [DecidableEq β]
    (f : α → β) :
    ∀ l : List α, (∀ a ∈ l, ∀ b ∈ l, f a = f b → a = b) →
      uniqueInOrder (l.map f) = (uniqueInOrder l).map f
  | [], _ => by simp [uniqueInOrder]
  | a :: l, hinj => by
    rw [List.map_cons, uniqueInOrder, uniqueInOrder, List.map_cons]
    rw [filter_ne_map f a l
      (fun c hc hfc => hinj c (List.mem_cons_of_mem _ hc) a (List.mem_cons_self a l) hfc)]
    rw [uniqueInOrder_map f (l.filter (fun b => b ≠ a))
      (fun c hc d hd hfcd =>
        hinj c (List.mem_cons_of_mem _ (List.mem_filter.mp hc).1)
          d (List.mem_cons_of_mem _ (List.mem_filter.mp hd).1) hfcd)]
termination_by l => l.length
decreasing_by
  simp only [List.length_cons]
  exact Nat.lt_succ_of_le (List.length_filter_le _ _)

/-! ### Stable-sort model lemmas -/

theorem insertDesc_perm (d : Datum) :
    ∀ l : List Datum, (insertDesc d l).Perm (d :: l)
  | [] => List.Perm.refl _
  | e :: l => by
    rw [insertDesc]
    by_cases h : e.value ≤ d.value
    · rw [if_pos h]
    · rw [if_neg h]
      exact ((insertDesc_perm d l).cons e).trans (List.Perm.swap d e l)

theorem sortDesc_perm (data : List Datum) : (sortDesc data).Perm data := by
  induction data with
  | nil => exact List.Perm.refl _
  | cons d l ih =>
    exact (insertDesc_perm d (sortDesc l)).trans (ih.cons d)

/-! ### Treemap lemmas -/

theorem squarifyGo_cons (d : Datum) (rest : List Datum) (x y remW remH remV : ℚ) :
    squarifyGo (d :: rest) x y remW remH remV =
      if remH < remW then
        ⟨d.name, d.value, x, y, remW * (d.value / remV), remH⟩ ::
          squarifyGo rest (x + remW * (d.value / remV)) y
            (remW - remW * (d.value / remV)) remH (remV - d.value)
      else
        ⟨d.name, d.value, x, y, remW, remH * (d.value / remV)⟩ ::
          squarifyGo rest x (y + remH * (d.value / remV)) remW
            (remH - remH * (d.value / remV)) (remV - d.value) := by
  rw [squarifyGo]

theorem squarifyGo_area :
    ∀ (l : List Datum) (x y remW remH remV : ℚ), l ≠ [] →
      (∀ d ∈ l, 0 < d.value) → remV = (l.map Datum.value).sum →
      ((squarifyGo l x y remW remH remV).map fun r => r.w * r.h).sum = remW * remH
  | [], _, _, _, _, _, hne, _, _ => absurd rfl hne
  | [d], x, y, remW, remH, remV, _, hpos, hrem => by
    have hv : d.value ≠ 0 := ne_of_gt (hpos d (by simp))
    have hrem' : remV = d.value := by simpa using hrem
    subst hrem'
    rw [squarifyGo_cons]
    by_cases hlt : remH < remW
    · rw [if_pos hlt]
      simp only [squarifyGo, List.map_cons, List.map_nil, List.sum_cons, List.sum_nil]
      field_simp
    · rw [if_neg hlt]
      simp only [squarifyGo, List.map_cons, List.map_nil, List.sum_cons, List.sum_nil]
      field_simp
  | d :: e :: rest, x, y, remW, remH, remV, _, hpos, hrem => by
    have hpos' : ∀ a ∈ e :: rest, 0 < a.value :=
      fun a ha => hpos a (List.mem_cons_of_mem d ha)
    have hrem' : remV - d.value = ((e :: rest).map Datum.value).sum := by
      rw [hrem]; simp
    rw [squarifyGo_cons]
    by_cases hlt : remH < remW
    · rw [if_pos hlt]
      simp only [List.map_cons, List.sum_cons]
      rw [squarifyGo_area (e :: rest) _ _ _ _ _ (by simp) hpos' hrem']
      ring
    · rw [if_neg hlt]
      simp only [List.map_cons, List.sum_cons]
      rw [squarifyGo_area (e :: rest) _ _ _ _ _ (by simp) hpos' hrem']
      ring

theorem squarifyGo_bounds :
    ∀ (l : List Datum) (x y remW remH remV : ℚ),
      (∀ d ∈ l, 0 < d.value) → remV = (l.map Datum.value).sum →
      0 ≤ remW → 0 ≤ remH →
      ∀ r ∈ squarifyGo l x y remW remH remV,
        x ≤ r.x ∧ r.x + r.w ≤ x + remW ∧ y ≤ r.y ∧ r.y + r.h ≤ y + remH
  | [], _, _, _, _, _, _, _, _, _ => by simp [squarifyGo]
  | d :: rest, x, y, remW, remH, remV, hpos, hrem, hw, hh => by
    have hd : 0 < d.value := hpos d (by simp)
    have hpos' : ∀ a ∈ rest, 0 < a.value :=
      fun a ha => hpos a (List.mem_cons_of_mem d ha)
    have hS : 0 ≤ (rest.map Datum.value).sum :=
      List.sum_nonneg (by
        intro a ha
        obtain ⟨b, hb, rfl⟩ := List.mem_map.mp ha
        exact le_of_lt (hpos' b hb))
    have hremV : 0 < remV := by
      rw [hrem]; simp only [List.map_cons, List.sum_cons]; linarith
    have hfrac0 : 0 ≤ d.value / remV := le_of_lt (div_pos hd hremV)
    have hfrac1 : d.value / remV ≤ 1 := by
      rw [div_le_one hremV, hrem]
      simp only [List.map_cons, List.sum_cons]
      linarith
    have hrem' : remV - d.value = (rest.map Datum.value).sum := by
      rw [hrem]; simp
    intro r hr
    rw [squarifyGo_cons] at hr
    by_cases hlt : remH < remW
    · rw [if_pos hlt] at hr
      simp only [List.mem_cons] at hr
      have hiw0 : 0 ≤ remW * (d.value / remV) := mul_nonneg hw hfrac0
      have hiw1 : remW * (d.value / remV) ≤ remW := mul_le_of_le_one_right hw hfrac1
      rcases hr with rfl | hr
      · constructor
        · exact le_refl x
        constructor
        · simpa using hiw1
        constructor
        · exact le_refl y
        · simp
      · have := squarifyGo_bounds rest (x + remW * (d.value / remV)) y
          (remW - remW * (d.value / remV)) remH (remV - d.value) hpos' hrem'
          (by linarith) hh r hr
        obtain ⟨h1, h2, h3, h4⟩ := this
        exact ⟨by linarith, by linarith, h3, h4⟩
    · rw [if_neg hlt] at hr
      simp only [List.mem_cons] at hr
      have hih0 : 0 ≤ remH * (d.value / remV) := mul_nonneg hh hfrac0
      have hih1 : remH * (d.value / remV) ≤ remH := mul_le_of_le_one_right hh hfrac1
      rcases hr with rfl | hr
      · constructor
        · exact le_refl x
        constructor
        · simp
        constructor
        · exact le_refl y
        · simpa using hih1
      · have := squarifyGo_bounds rest x (y + remH * (d.value / remV)) remW
          (remH - remH * (d.value / remV)) (remV - d.value) hpos' hrem'
          hw (by linarith) r hr
        obtain ⟨h1, h2, h3, h4⟩ := this
        exact ⟨h1, h2, by linarith, by linarith⟩

theorem squarifyGo_pairwise :
    ∀ (l : List Datum) (x y remW remH remV : ℚ),
      (∀ d ∈ l, 0 < d.value) → remV = (l.map Datum.value).sum →
      0 ≤ remW → 0 ≤ remH →
      List.Pairwise (fun r s => ¬ overlaps r s) (squarifyGo l x y remW remH remV)
  | [], _, _, _, _, _, _, _, _, _ => by simp [squarifyGo]
  | d :: rest, x, y, remW, remH, remV, hpos, hrem, hw, hh => by
    have hd : 0 < d.value := hpos d (by simp)
    have hpos' : ∀ a ∈ rest, 0 < a.value :=
      fun a ha => hpos a (List.mem_cons_of_mem d ha)
    have hS : 0 ≤ (rest.map Datum.value).sum :=
      List.sum_nonneg (by
        intro a ha
        obtain ⟨b, hb, rfl⟩ := List.mem_map.mp ha
        exact le_of_lt (hpos' b hb))
    have hremV : 0 < remV := by
      rw [hrem]; simp only [List.map_cons, List.sum_cons]; linarith
    have hfrac0 : 0 ≤ d.value / remV := le_of_lt (div_pos hd hremV)
    have hfrac1 : d.value / remV ≤ 1 := by
      rw [div_le_one hremV, hrem]
      simp only [List.map_cons, List.sum_cons]
      linarith
    have hrem' : remV - d.value = (rest.map Datum.value).sum := by
      rw [hrem]; simp
    rw [squarifyGo_cons]
    by_cases hlt : remH < remW
    · have hiw0 : 0 ≤ remW * (d.value / remV) := mul_nonneg hw hfrac0
      rw [if_pos hlt, List.pairwise_cons]
      constructor
      · intro s hs hov
        have hb := squarifyGo_bounds rest (x + remW * (d.value / remV)) y
          (remW - remW * (d.value / remV)) remH (remV - d.value) hpos' hrem'
          (by linarith [mul_le_of_le_one_right hw hfrac1]) hh s hs
        rw [overlaps] at hov
        obtain ⟨hov1, _, _, _⟩ := hov
        obtain ⟨hb1, _, _, _⟩ := hb
        simp only at hov1 hb1
        linarith
      · exact squarifyGo_pairwise rest (x + remW * (d.value / remV)) y
          (remW - remW * (d.value / remV)) remH (remV - d.value) hpos' hrem'
          (by linarith [mul_le_of_le_one_right hw hfrac1]) hh
    · have hih0 : 0 ≤ remH * (d.value / remV) := mul_nonneg hh hfrac0
      rw [if_neg hlt, List.pairwise_cons]
      constructor
      · intro s hs hov
        have hb := squarifyGo_bounds rest x (y + remH * (d.value / remV)) remW
          (remH - remH * (d.value / remV)) (remV - d.value) hpos' hrem'
          hw (by linarith [mul_le_of_le_one_right hh hfrac1]) s hs
        rw [overlaps] at hov
        obtain ⟨_, _, hov3, _⟩ := hov
        obtain ⟨_, _, hb3, _⟩ := hb
        simp only at hov3 hb3
        linarith
      · exact squarifyGo_pairwise rest x (y + remH * (d.value / remV)) remW
          (remH - remH * (d.value / remV)) (remV - d.value) hpos' hrem'
          hw (by linarith [mul_le_of_le_one_right hh hfrac1])

/-- C2: for every treemap input of n>0 positive-valued items and target
rectangle `w × h`, the rectangles produced by the squarified layout exactly
tile the target: their areas sum to `w * h` (exactly, over `ℚ`) and no two of
them overlap. -/
theorem treemap_exact_tiling (data : List Datum) (w h : ℚ)
    (hne : data ≠ []) (hpos : ∀ d ∈ data, 0 < d.value)
    (hw : 0 ≤ w) (hh : 0 ≤ h) :
    ((treemapRects data w h).map fun r => r.w * r.h).sum = w * h ∧
      List.Pairwise (fun r s => ¬ overlaps r s) (treemapRects data w h) := by
  have hperm := sortDesc_perm data
  have hpos' : ∀ d ∈ sortDesc data, 0 < d.value :=
    fun d hd => hpos d (hperm.mem_iff.mp hd)
  have hne' : sortDesc data ≠ [] := by
    intro hnil
    exact hne ((hnil ▸ hperm).symm.eq_nil)
  have hsum : (data.map Datum.value).sum = ((sortDesc data).map Datum.value).sum :=
    ((hperm.map Datum.value).sum_eq).symm
  constructor
  · exact squarifyGo_area (sortDesc data) 0 0 w h _ hne' hpos' hsum
  · exact squarifyGo_pairwise (sortDesc data) 0 0 w h _ hpos' hsum hw hh

/-! ### Sum factoring lemma shared by flow and radial conservation -/

theorem shares_sum {α : Type} (l : List α) (f : α → ℚ) (T H : ℚ)
    (hT : T = (l.map f).sum) (hT0 : T ≠ 0) :
    (l.map fun a => f a / T * H).sum = H := by
  have hcg : l.map (fun a => f a / T * H) = l.map (fun a => f a * (H / T)) := by
    apply List.map_congr_left
    intro a _
    rw [div_mul_eq_mul_div, mul_div_assoc]
  rw [hcg, List.sum_map_mul_right, ← hT]
  exact mul_div_cancel₀ H hT0

theorem filtered_value_sum_pos (data : List Datum) (p : Datum → Bool)
    (hpos : ∀ d ∈ data, 0 < d.value) (d : Datum) (hd : d ∈ data)
    (hpd : p d) :
    0 < ((data.filter p).map Datum.value).sum := by
  have hmem : d ∈ data.filter p := List.mem_filter.mpr ⟨hd, hpd⟩
  apply List.sum_pos
  · intro a ha
    obtain ⟨b, hb, rfl⟩ := List.mem_map.mp ha
    exact hpos b (List.mem_filter.mp hb).1
  · intro hnil
    rw [List.map_eq_nil_iff] at hnil
    rw [hnil] at hmem
    exact List.not_mem_nil d hmem

/-! ### Sunburst lemmas -/

theorem sunburstGo_cons (tau total cur : ℚ) (d : Datum) (rest : List Datum) :
    sunburstGo tau total cur (d :: rest) =
      ⟨d.name, d.value, cur, cur + d.value / total * tau⟩ ::
        sunburstGo tau total (cur + d.value / total * tau) rest := by
  rw [sunburstGo]

theorem sunburstGo_spans (tau total : ℚ) :
    ∀ (l : List Datum) (cur : ℚ),
      ((sunburstGo tau total cur l).map fun w => w.endAngle - w.startAngle)
        = l.map (fun d => d.value / total * tau)
  | [], _ => by simp [sunburstGo]
  | d :: rest, cur => by
    rw [sunburstGo_cons]
    simp only [List.map_cons]
    rw [sunburstGo_spans tau total rest]
    simp

theorem sunburstGo_chain (tau total : ℚ) :
    ∀ (l : List Datum) (cur : ℚ),
      List.Chain' (fun w w' => w'.startAngle = w.endAngle)
        (sunburstGo tau total cur l)
  | [], _ => List.chain'_nil
  | d :: rest, cur => by
    rw [sunburstGo_cons, List.chain'_cons']
    constructor
    · intro w hw
      cases rest with
      | nil => simp [sunburstGo] at hw
      | cons e rest' =>
        rw [sunburstGo_cons] at hw
        simp only [List.head?_cons, Option.mem_def, Option.some.injEq] at hw
        subst hw
        simp
    · exact sunburstGo_chain tau total rest (cur + d.value / total * tau)

/-- C3: for every radial-partition input of n>0 positive-valued items,
processed in input order with a running angle starting at 0, the wedge spans
`endAngle − startAngle` sum to the full circle `tau` (the code's
`2 * Math.PI`), exactly over `ℚ`; the first wedge starts at 0 and each wedge
starts where the previous one ended. -/
theorem sunburst_angle_conservation (tau : ℚ) (data : List Datum)
    (hne : data ≠ []) (hpos : ∀ d ∈ data, 0 < d.value) :
    (((sunburstWedges tau data).map fun w => w.endAngle - w.startAngle).sum
        = tau) ∧
      ((sunburstWedges tau data).head?.map Wedge.startAngle = some 0) ∧
      List.Chain' (fun w w' => w'.startAngle = w.endAngle)
        (sunburstWedges tau data) := by
  have htot : (data.map Datum.value).sum ≠ 0 := by
    apply ne_of_gt
    apply List.sum_pos
    · intro a ha
      obtain ⟨b, hb, rfl⟩ := List.mem_map.mp ha
      exact hpos b hb
    · intro h0
      rw [List.map_eq_nil_iff] at h0
      exact hne h0
  refine ⟨?_, ?_, sunburstGo_chain tau _ data 0⟩
  · rw [sunburstWedges, sunburstGo_spans]
    exact shares_sum data Datum.value _ tau rfl htot
  · cases data with
    | nil => exact absurd rfl hne
    | cons d rest =>
      rw [sunburstWedges, sunburstGo_cons]
      simp

/-- Witness for C3 at the spec's Scenario B shape: items `[{25},{75}]`,
with `tau = 8` standing for the full turn. -/
theorem sunburst_angle_conservation_witness :
    ([⟨"a", 25, none, none, none, none, none⟩,
      ⟨"b", 75, none, none, none, none, none⟩] : List Datum) ≠ [] ∧
    (∀ d ∈ ([⟨"a", 25, none, none, none, none, none⟩,
      ⟨"b", 75, none, none, none, none, none⟩] : List Datum), 0 < d.value) ∧
    ((((sunburstWedges 8 [⟨"a", 25, none, none, none, none, none⟩,
          ⟨"b", 75, none, none, none, none, none⟩]).map
            fun w => w.endAngle - w.startAngle).sum = 8) ∧
      ((sunburstWedges 8 [⟨"a", 25, none, none, none, none, none⟩,
          ⟨"b", 75, none, none, none, none, none⟩]).head?.map Wedge.startAngle
        = some 0) ∧
      List.Chain' (fun w w' => w'.startAngle = w.endAngle)
        (sunburstWedges 8 [⟨"a", 25, none, none, none, none, none⟩,
          ⟨"b", 75, none, none, none, none, none⟩])) := by
  refine ⟨by simp, ?_, ?_⟩
  · intro d hd
    simp only [List.mem_cons, List.not_mem_nil, or_false] at hd
    rcases hd with rfl | rfl <;> norm_num
  · exact sunburst_angle_conservation 8 _ (by simp)
      (by
        intro d hd
        simp only [List.mem_cons, List.not_mem_nil, or_false] at hd
        rcases hd with rfl | rfl <;> norm_num)

/-! ### Sankey lemmas -/

theorem sourceTotal_pos (data : List Datum) (s : String)
    (hpos : ∀ d ∈ data, 0 < d.value) (hs : s ∈ sourceNames data) :
    0 < sourceTotal data s := by
  rw [sourceNames, mem_uniqueInOrder] at hs
  obtain ⟨d, hd, hds⟩ := List.mem_filterMap.mp hs
  exact filtered_value_sum_pos data _ hpos d hd (by simp [hds])

theorem targetTotal_pos (data : List Datum) (t : String)
    (hpos : ∀ d ∈ data, 0 < d.value) (ht : t ∈ targetNames data) :
    0 < targetTotal data t := by
  rw [targetNames, mem_uniqueInOrder] at ht
  obtain ⟨d, hd, hdt⟩ := List.mem_filterMap.mp ht
  exact filtered_value_sum_pos data _ hpos d hd (by simp [hdt])

/-- C1: for every flow input and every node, the sum of the vertical shares
`(edgeValue / nodeTotalValue) * nodeHeight` of the node's incident edges
equals the node's height — on the source side (where the share is exactly the
code's `linkHeight` of line 1082) and on the target side. -/
theorem sankey_flow_conservation (data : List Datum) (innerH : ℚ)
    (s t : String) (hpos : ∀ d ∈ data, 0 < d.value)
    (hs : s ∈ sourceNames data) (ht : t ∈ targetNames data) :
    (((data.filter (fun d => d.source = some s)).map
        (fun d => d.value / sourceTotal data s * sourceNodeHeight data innerH s)).sum
      = sourceNodeHeight data innerH s) ∧
    (((data.filter (fun d => d.target = some t)).map
        (fun d => d.value / targetTotal data t * targetNodeHeight data innerH t)).sum
      = targetNodeHeight data innerH t) := by
  constructor
  · exact shares_sum _ Datum.value _ _ rfl
      (ne_of_gt (sourceTotal_pos data s hpos hs))
  · exact shares_sum _ Datum.value _ _ rfl
      (ne_of_gt (targetTotal_pos data t hpos ht))

/-! ### Sankey stacking lemmas -/

theorem lastBottom_cons_cons (p q : ℚ × ℚ) (l : List (ℚ × ℚ)) :
    lastBottom (p :: q :: l) = lastBottom (q :: l) := by
  simp only [lastBottom, List.getLast?_cons_cons]

theorem lastBottom_stackGo (gap : ℚ) :
    ∀ (hs : List ℚ) (y0 : ℚ), hs ≠ [] →
      lastBottom (stackGo gap y0 hs)
        = y0 + hs.sum + gap * ((hs.length - 1 : ℕ) : ℚ)
  | [], _, hne => absurd rfl hne
  | [hh], y0, _ => by
    simp [stackGo, lastBottom]
  | hh :: hh2 :: tl, y0, _ => by
    have ih := lastBottom_stackGo gap (hh2 :: tl) (y0 + hh + gap) (by simp)
    have step : stackGo gap y0 (hh :: hh2 :: tl)
        = (y0, hh) :: stackGo gap (y0 + hh + gap) (hh2 :: tl) := by
      rw [stackGo]
    have step2 : stackGo gap (y0 + hh + gap) (hh2 :: tl)
        = (y0 + hh + gap, hh2) :: stackGo gap (y0 + hh + gap + hh2 + gap) tl := by
      rw [stackGo]
    rw [step, step2, lastBottom_cons_cons, ← step2, ih]
    simp only [List.sum_cons, List.length_cons, Nat.add_sub_cancel]
    push_cast
    ring

/-- C10: the stacked source-node heights sum exactly to `innerH`, and since a
fixed 5-unit gap is added after each node, the bottom edge of the last of the
`k` source nodes sits at `innerH + 5·(k−1)`; with `k ≥ 2` the column extends
strictly below the declared drawing height — and likewise for the target
column. -/
theorem sankey_column_overflow (data : List Datum) (innerH : ℚ)
    (hks : 2 ≤ (sourceNames data).length)
    (hkt : 2 ≤ (targetNames data).length)
    (hGs : totalSourceValue data ≠ 0) (hGt : totalTargetValue data ≠ 0) :
    ((sourceHeights data innerH).sum = innerH ∧
      lastBottom (sourceStack data innerH)
        = innerH + 5 * (((sourceNames data).length - 1 : ℕ) : ℚ) ∧
      innerH < lastBottom (sourceStack data innerH)) ∧
    ((targetHeights data innerH).sum = innerH ∧
      lastBottom (targetStack data innerH)
        = innerH + 5 * (((targetNames data).length - 1 : ℕ) : ℚ) ∧
      innerH < lastBottom (targetStack data innerH)) := by
  have hsum_s : (sourceHeights data innerH).sum = innerH := by
    rw [sourceHeights]
    have hcg : (sourceNames data).map (sourceNodeHeight data innerH)
        = (sourceNames data).map
            (fun n => sourceTotal data n / totalSourceValue data * innerH) := by
      apply List.map_congr_left
      intro n _
      rw [sourceNodeHeight]
    rw [hcg]
    exact shares_sum (sourceNames data) (sourceTotal data) _ innerH rfl hGs
  have hsum_t : (targetHeights data innerH).sum = innerH := by
    rw [targetHeights]
    have hcg : (targetNames data).map (targetNodeHeight data innerH)
        = (targetNames data).map
            (fun n => targetTotal data n / totalTargetValue data * innerH) := by
      apply List.map_congr_left
      intro n _
      rw [targetNodeHeight]
    rw [hcg]
    exact shares_sum (targetNames data) (targetTotal data) _ innerH rfl hGt
  have hlen_s : (sourceHeights data innerH).length = (sourceNames data).length := by
    rw [sourceHeights, List.length_map]
  have hlen_t : (targetHeights data innerH).length = (targetNames data).length := by
    rw [targetHeights, List.length_map]
  have hne_s : sourceHeights data innerH ≠ [] := by
    intro h0
    rw [h0] at hlen_s
    simp at hlen_s
    omega
  have hne_t : targetHeights data innerH ≠ [] := by
    intro h0
    rw [h0] at hlen_t
    simp at hlen_t
    omega
  have hbot_s : lastBottom (sourceStack data innerH)
      = innerH + 5 * (((sourceNames data).length - 1 : ℕ) : ℚ) := by
    rw [sourceStack, lastBottom_stackGo 5 _ 0 hne_s, hsum_s, hlen_s]
    ring
  have hbot_t : lastBottom (targetStack data innerH)
      = innerH + 5 * (((targetNames data).length - 1 : ℕ) : ℚ) := by
    rw [targetStack, lastBottom_stackGo 5 _ 0 hne_t, hsum_t, hlen_t]
    ring
  have hovf_s : innerH < lastBottom (sourceStack data innerH) := by
    rw [hbot_s]
    have h1 : (1 : ℚ) ≤ (((sourceNames data).length - 1 : ℕ) : ℚ) := by
      have : 1 ≤ (sourceNames data).length - 1 := by omega
      exact_mod_cast this
    linarith
  have hovf_t : innerH < lastBottom (targetStack data innerH) := by
    rw [hbot_t]
    have h1 : (1 : ℚ) ≤ (((targetNames data).length - 1 : ℕ) : ℚ) := by
      have : 1 ≤ (targetNames data).length - 1 := by omega
      exact_mod_cast this
    linarith
  exact ⟨⟨hsum_s, hbot_s, hovf_s⟩, ⟨hsum_t, hbot_t, hovf_t⟩⟩

/-- Witness for C2 at the spec's Scenario A: items `[{A,60},{B,40}]` on a
200×100 rectangle. -/
theorem treemap_exact_tiling_witness :
    ([⟨"A", 60, none, none, none, none, none⟩,
      ⟨"B", 40, none, none, none, none, none⟩] : List Datum) ≠ [] ∧
    (∀ d ∈ ([⟨"A", 60, none, none, none, none, none⟩,
      ⟨"B", 40, none, none, none, none, none⟩] : List Datum), 0 < d.value) ∧
    (0 : ℚ) ≤ 200 ∧ (0 : ℚ) ≤ 100 ∧
    (((treemapRects [⟨"A", 60, none, none, none, none, none⟩,
        ⟨"B", 40, none, none, none, none, none⟩] 200 100).map
          fun r => r.w * r.h).sum = 200 * 100 ∧
      List.Pairwise (fun r s => ¬ overlaps r s)
        (treemapRects [⟨"A", 60, none, none, none, none, none⟩,
          ⟨"B", 40, none, none, none, none, none⟩] 200 100)) := by
  refine ⟨by simp, ?_, by norm_num, by norm_num, ?_⟩
  · intro d hd
    simp only [List.mem_cons, List.not_mem_nil, or_false] at hd
    rcases hd with rfl | rfl <;> norm_num
  · exact treemap_exact_tiling _ 200 100 (by simp)
      (by
        intro d hd
        simp only [List.mem_cons, List.not_mem_nil, or_false] at hd
        rcases hd with rfl | rfl <;> norm_num)
      (by norm_num) (by norm_num)

/-- Witness for C1 on `exFlow` at node `A` (source side) and `X`
(target side), inner height 100. -/
theorem sankey_flow_conservation_witness :
    (∀ d ∈ exFlow, 0 < d.value) ∧
    "A" ∈ sourceNames exFlow ∧ "X" ∈ targetNames exFlow ∧
    ((((exFlow.filter (fun d => d.source = some "A")).map
        (fun d => d.value / sourceTotal exFlow "A" *
          sourceNodeHeight exFlow 100 "A")).sum
      = sourceNodeHeight exFlow 100 "A") ∧
    (((exFlow.filter (fun d => d.target = some "X")).map
        (fun d => d.value / targetTotal exFlow "X" *
          targetNodeHeight exFlow 100 "X")).sum
      = targetNodeHeight exFlow 100 "X")) := by
  have hpos : ∀ d ∈ exFlow, 0 < d.value := by
    intro d hd
    simp only [exFlow, List.mem_cons, List.not_mem_nil, or_false] at hd
    rcases hd with rfl | rfl | rfl <;> norm_num
  have hs : "A" ∈ sourceNames exFlow := by
    rw [sourceNames, mem_uniqueInOrder]
    simp [exFlow, List.filterMap_cons]
  have ht : "X" ∈ targetNames exFlow := by
    rw [targetNames, mem_uniqueInOrder]
    simp [exFlow, List.filterMap_cons]
  exact ⟨hpos, hs, ht, sankey_flow_conservation exFlow 100 "A" "X" hpos hs ht⟩

/-- Witness for C10 on `exFlow` (two sources, two targets), inner
height 100. -/
theorem sankey_column_overflow_witness :
    2 ≤ (sourceNames exFlow).length ∧ 2 ≤ (targetNames exFlow).length ∧
    totalSourceValue exFlow ≠ 0 ∧ totalTargetValue exFlow ≠ 0 ∧
    (((sourceHeights exFlow 100).sum = 100 ∧
      lastBottom (sourceStack exFlow 100)
        = 100 + 5 * (((sourceNames exFlow).length - 1 : ℕ) : ℚ) ∧
      (100 : ℚ) < lastBottom (sourceStack exFlow 100)) ∧
    ((targetHeights exFlow 100).sum = 100 ∧
      lastBottom (targetStack exFlow 100)
        = 100 + 5 * (((targetNames exFlow).length - 1 : ℕ) : ℚ) ∧
      (100 : ℚ) < lastBottom (targetStack exFlow 100))) := by
  have hsn : sourceNames exFlow = ["A", "B"] := by
    simp [sourceNames, exFlow, List.filterMap_cons, uniqueInOrder]
  have htn : targetNames exFlow = ["X", "Y"] := by
    simp [targetNames, exFlow, List.filterMap_cons, uniqueInOrder]
  have hks : 2 ≤ (sourceNames exFlow).length := by rw [hsn]; simp
  have hkt : 2 ≤ (targetNames exFlow).length := by rw [htn]; simp
  have hGs : totalSourceValue exFlow ≠ 0 := by
    rw [totalSourceValue, hsn]
    simp [sourceTotal, exFlow, List.filter_cons]
    norm_num
  have hGt : totalTargetValue exFlow ≠ 0 := by
    rw [totalTargetValue, htn]
    simp [targetTotal, exFlow, List.filter_cons]
    norm_num
  exact ⟨hks, hkt, hGs, hGt,
    sankey_column_overflow exFlow 100 hks hkt hGs hGt⟩

/-! ### Heatmap lemmas -/

theorem foldl_min_le : ∀ (l : List ℚ) (a : ℚ), l.foldl min a ≤ a
  | [], a => le_refl a
  | b :: l, a => le_trans (foldl_min_le l (min a b)) (min_le_left a b)

theorem foldl_min_le_mem :
    ∀ (l : List ℚ) (a v : ℚ), v ∈ l → l.foldl min a ≤ v
  | b :: l, a, v, hv => by
    rcases List.mem_cons.mp hv with rfl | hv'
    · exact le_trans (foldl_min_le l (min a v)) (min_le_right a v)
    · exact foldl_min_le_mem l (min a b) v hv'

theorem le_foldl_max : ∀ (l : List ℚ) (a : ℚ), a ≤ l.foldl max a
  | [], a => le_refl a
  | b :: l, a => le_trans (le_max_left a b) (le_foldl_max l (max a b))

theorem le_foldl_max_mem :
    ∀ (l : List ℚ) (a v : ℚ), v ∈ l → v ≤ l.foldl max a
  | b :: l, a, v, hv => by
    rcases List.mem_cons.mp hv with rfl | hv'
    · exact le_trans (le_max_right a v) (le_foldl_max l (max a v))
    · exact le_foldl_max_mem l (max a b) v hv'

theorem minV_le_of_mem (l : List ℚ) (v : ℚ) (hv : v ∈ l) : minV l ≤ v := by
  cases l with
  | nil => exact absurd hv (List.not_mem_nil v)
  | cons a l' =>
    rw [minV]
    rcases List.mem_cons.mp hv with rfl | hv'
    · exact foldl_min_le l' v
    · exact foldl_min_le_mem l' a v hv'

theorem le_maxV_of_mem (l : List ℚ) (v : ℚ) (hv : v ∈ l) : v ≤ maxV l := by
  cases l with
  | nil => exact absurd hv (List.not_mem_nil v)
  | cons a l' =>
    rw [maxV]
    rcases List.mem_cons.mp hv with rfl | hv'
    · exact le_foldl_max l' v
    · exact le_foldl_max_mem l' a v hv'

/-- C7: every computed heatmap cell intensity lies in `[0, 1]`, and when the
global minimum equals the global maximum the intensity is 0 (the
`(max - min || 1)` guard prevents division by zero). -/
theorem heat_intensity_in_unit (data : List Datum) (innerW innerH : ℚ)
    (c : HeatCell) (hc : c ∈ heatCells data innerW innerH) :
    (0 ≤ c.intensity ∧ c.intensity ≤ 1) ∧
      (minV (data.map Datum.value) = maxV (data.map Datum.value) →
        c.intensity = 0) := by
  simp only [heatCells, List.mem_filterMap] at hc
  obtain ⟨d, hd, hfd⟩ := hc
  by_cases hguard : rowKey d ∈ heatRows data ∧ colKey d ∈ heatCols data
  · rw [if_pos hguard] at hfd
    have hc' := (Option.some.injEq _ _).mp hfd
    subst hc'
    have hmem : d.value ∈ data.map Datum.value :=
      List.mem_map_of_mem Datum.value hd
    have hmin : minV (data.map Datum.value) ≤ d.value :=
      minV_le_of_mem _ _ hmem
    have hmax : d.value ≤ maxV (data.map Datum.value) :=
      le_maxV_of_mem _ _ hmem
    by_cases hdf : maxV (data.map Datum.value) - minV (data.map Datum.value) = 0
    · have hvz : d.value - minV (data.map Datum.value) = 0 := by linarith
      have hden : heatDenom data = 1 := by
        simp only [heatDenom]
        rw [if_pos hdf]
      constructor
      · simp [hden, hvz]
      · intro _
        simp [hden, hvz]
    · have hlt : minV (data.map Datum.value) < maxV (data.map Datum.value) := by
        rcases lt_or_eq_of_le (le_trans hmin hmax) with h | h
        · exact h
        · exact absurd (by linarith) hdf
      have hden : heatDenom data
          = maxV (data.map Datum.value) - minV (data.map Datum.value) := by
        simp only [heatDenom]
        rw [if_neg hdf]
      constructor
      · constructor
        · simp only [hden]
          exact div_nonneg (by linarith) (by linarith)
        · simp only [hden]
          rw [div_le_one (by linarith)]
          linarith
      · intro heq
        exact absurd (by linarith) hdf
  · rw [if_neg hguard] at hfd
    exact absurd hfd (by simp)

/-- Witness for C7 on `exHeat` with a 10×10 inner rectangle: the first cell
is at grid position (0,0) with intensity 0. -/
theorem heat_intensity_in_unit_witness :
    (⟨0, 0, 0, 0, 0, 1⟩ : HeatCell) ∈ heatCells exHeat 10 10 ∧
      ((0 ≤ (⟨0, 0, 0, 0, 0, 1⟩ : HeatCell).intensity ∧
        (⟨0, 0, 0, 0, 0, 1⟩ : HeatCell).intensity ≤ 1) ∧
      (minV (exHeat.map Datum.value) = maxV (exHeat.map Datum.value) →
        (⟨0, 0, 0, 0, 0, 1⟩ : HeatCell).intensity = 0)) := by
  have hmem : (⟨0, 0, 0, 0, 0, 1⟩ : HeatCell) ∈ heatCells exHeat 10 10 := by
    norm_num [heatCells, heatRows, heatCols, uniqueInOrder, rowKey, colKey,
      indexIn, minV, maxV, heatDenom, exHeat, List.filterMap_cons]
  exact ⟨hmem, heat_intensity_in_unit exHeat 10 10 _ hmem⟩

theorem filterMap_guard_eq_map {α β : Type} (P : α → Prop)
    [DecidablePred P] (g : α → β) :
    ∀ l : List α, (∀ a ∈ l, P a) →
      (l.filterMap fun a => if P a then some (g a) else none) = l.map g
  | [], _ => rfl
  | a :: l, h => by
    have hfa : (if P a then some (g a) else none) = some (g a) :=
      if_pos (h a (List.mem_cons_self a l))
    rw [List.filterMap_cons, hfa,
      filterMap_guard_eq_map P g l (fun b hb => h b (List.mem_cons_of_mem a hb)),
      List.map_cons]

theorem heatCells_eq_map (data : List Datum) (innerW innerH : ℚ) :
    heatCells data innerW innerH = data.map (fun d =>
      ⟨indexIn (rowKey d) (heatRows data), indexIn (colKey d) (heatCols data),
       (indexIn (colKey d) (heatCols data) : ℚ)
         * (innerW / ((heatCols data).length : ℚ)),
       (indexIn (rowKey d) (heatRows data) : ℚ)
         * (innerH / ((heatRows data).length : ℚ)),
       (d.value - minV (data.map Datum.value)) / heatDenom data, d.value⟩) := by
  simp only [heatCells]
  apply filterMap_guard_eq_map
  intro d hd
  constructor
  · rw [heatRows, mem_uniqueInOrder]
    exact List.mem_map_of_mem rowKey hd
  · rw [heatCols, mem_uniqueInOrder]
    exact List.mem_map_of_mem colKey hd

/-- C8: the number of distinct grid cells touched by an emitted heatmap cell
equals the number of distinct `(rowKey, colKey)` pairs present in the input
(`rowKey` falling back to `category` then `'Row'`, `colKey` to `name`), with
indices assigned in first-seen order. -/
theorem heat_distinct_cells (data : List Datum) (innerW innerH : ℚ) :
    (uniqueInOrder ((heatCells data innerW innerH).map
        fun c => (c.rowIdx, c.colIdx))).length
      = (uniqueInOrder (data.map fun d => (rowKey d, colKey d))).length := by
  have hmaps : (heatCells data innerW innerH).map (fun c => (c.rowIdx, c.colIdx))
      = (data.map fun d => (rowKey d, colKey d)).map
          (fun p => (indexIn p.1 (heatRows data), indexIn p.2 (heatCols data))) := by
    rw [heatCells_eq_map, List.map_map, List.map_map]
    apply List.map_congr_left
    intro d _
    rfl
  rw [hmaps]
  have hinj : ∀ a ∈ (data.map fun d => (rowKey d, colKey d)),
      ∀ b ∈ (data.map fun d => (rowKey d, colKey d)),
      (indexIn a.1 (heatRows data), indexIn a.2 (heatCols data))
        = (indexIn b.1 (heatRows data), indexIn b.2 (heatCols data)) → a = b := by
    intro a ha b hb hf
    obtain ⟨da, hda, rfl⟩ := List.mem_map.mp ha
    obtain ⟨db, hdb, rfl⟩ := List.mem_map.mp hb
    have h1 := congrArg Prod.fst hf
    have h2 := congrArg Prod.snd hf
    simp only at h1 h2
    have hra : rowKey da ∈ heatRows data := by
      rw [heatRows, mem_uniqueInOrder]
      exact List.mem_map_of_mem rowKey hda
    have hrb : rowKey db ∈ heatRows data := by
      rw [heatRows, mem_uniqueInOrder]
      exact List.mem_map_of_mem rowKey hdb
    have hca : colKey da ∈ heatCols data := by
      rw [heatCols, mem_uniqueInOrder]
      exact List.mem_map_of_mem colKey hda
    have hcb : colKey db ∈ heatCols data := by
      rw [heatCols, mem_uniqueInOrder]
      exact List.mem_map_of_mem colKey hdb
    have hr : rowKey da = rowKey db := indexIn_inj _ _ _ hra hrb h1
    have hcc : colKey da = colKey db := indexIn_inj _ _ _ hca hcb h2
    rw [Prod.ext_iff]
    exact ⟨hr, hcc⟩
  rw [uniqueInOrder_map _ _ hinj, List.length_map]

/-! ### Output-length lemmas (degenerate zero-total inputs) -/

theorem squarifyGo_length :
    ∀ (l : List Datum) (x y remW remH remV : ℚ),
      (squarifyGo l x y remW remH remV).length = l.length
  | [], _, _, _, _, _ => rfl
  | d :: rest, x, y, remW, remH, remV => by
    rw [squarifyGo_cons]
    by_cases hlt : remH < remW
    · rw [if_pos hlt]
      simp [squarifyGo_length rest]
    · rw [if_neg hlt]
      simp [squarifyGo_length rest]

theorem sunburstGo_length (tau total : ℚ) :
    ∀ (l : List Datum) (cur : ℚ),
      (sunburstGo tau total cur l).length = l.length
  | [], _ => rfl
  | d :: rest, cur => by
    rw [sunburstGo_cons]
    simp [sunburstGo_length tau total rest]

/-- C4 counterexample: the single-item zero-total input `exZero` does NOT
yield an empty primitive list — both the treemap and the radial partition
emit a primitive for it (there is no zero-total guard in the code). -/
theorem zero_total_not_empty_counterexample :
    treemapRects exZero 100 100 ≠ [] ∧ sunburstWedges 8 exZero ≠ [] := by
  constructor
  · simp [treemapRects, squarify, sortDesc, insertDesc, squarifyGo, exZero]
  · simp [sunburstWedges, sunburstGo, exZero]

/-- C4 amended: the zero-total case is not guarded: `squarify` and
`renderSunburst` emit exactly one primitive per input item even when the
value total is zero (in JS the division by zero yields NaN geometry inside
those primitives; the list is never empty for nonempty input). -/
theorem zero_total_emits_one_per_item (data : List Datum) (w h tau : ℚ)
    (_hz : (data.map Datum.value).sum = 0) :
    (treemapRects data w h).length = data.length ∧
      (sunburstWedges tau data).length = data.length := by
  constructor
  · simp only [treemapRects, squarify]
    rw [squarifyGo_length]
    exact (sortDesc_perm data).length_eq
  · simp only [sunburstWedges]
    rw [sunburstGo_length]

/-- Witness for the amended C4 on `exZero`. -/
theorem zero_total_emits_one_per_item_witness :
    (exZero.map Datum.value).sum = 0 ∧
      ((treemapRects exZero 100 100).length = exZero.length ∧
        (sunburstWedges 8 exZero).length = exZero.length) := by
  have hz : (exZero.map Datum.value).sum = 0 := by simp [exZero]
  exact ⟨hz, zero_total_emits_one_per_item exZero 100 100 8 hz⟩

/-- C6 counterexample: on the two equal items of `exTie` over a square
100×100 target (total 2) the first placed rectangle would be the full-height
50×100 column if the tie were routed to the width-cutting branch; the code
instead produces the full-width 100×50 row. -/
theorem tie_break_counterexample :
    (squarify exTie 100 100 2).head? ≠
      some ⟨"A", 1, 0, 0, 50, 100⟩ := by
  simp [squarify, sortDesc, insertDesc, squarifyGo, exTie]

/-- C6 amended: whenever the remaining rectangle's width equals its height,
the next item is placed by the ROW-cutting branch — a full-width row of
height `side * (value / remV)` cut from the top edge (the
`remainingWidth > remainingHeight` test is strict, so equality falls to the
`else` branch); the tie-break is deterministic. -/
theorem squarify_tie_row_cut (d : Datum) (rest : List Datum)
    (x y side remV : ℚ) :
    squarifyGo (d :: rest) x y side side remV =
      ⟨d.name, d.value, x, y, side, side * (d.value / remV)⟩ ::
        squarifyGo rest x (y + side * (d.value / remV)) side
          (side - side * (d.value / remV)) (remV - d.value) := by
  rw [squarifyGo_cons, if_neg (lt_irrefl side)]

/-- C5 counterexample: the dispatcher does NOT drop the negative-valued
datum of `exNeg` — rendering the full list differs from rendering the list
with negative values removed. -/
theorem dispatcher_filter_counterexample :
    renderChart 8 ChartKind.treemap exNeg 220 120 ≠
      renderChart 8 ChartKind.treemap (dropNegative exNeg) 220 120 := by
  simp [renderChart, renderTreemapModel, treemapRects, squarify, sortDesc,
    insertDesc, squarifyGo, dropNegative, exNeg, List.filter_cons]
  norm_num

/-- C5 amended: the dispatcher performs no value validation at all — it
hands the item list to the selected layout algorithm unchanged, which
coincides with the claim's filtered form only when no datum is negative. -/
theorem dispatcher_passes_items_unfiltered (tau : ℚ) (kind : ChartKind)
    (data : List Datum) (w h : ℚ) (hpos : ∀ d ∈ data, 0 ≤ d.value) :
    renderChart tau kind data w h
      = renderChart tau kind (dropNegative data) w h := by
  have hid : dropNegative data = data := by
    unfold dropNegative
    apply List.filter_eq_self.mpr
    intro a ha
    exact decide_eq_true (hpos a ha)
  rw [hid]

/-- Witness for the amended C5 on `exTreemap`. -/
theorem dispatcher_passes_items_unfiltered_witness :
    (∀ d ∈ exTreemap, 0 ≤ d.value) ∧
      renderChart 8 ChartKind.treemap exTreemap 220 120
        = renderChart 8 ChartKind.treemap (dropNegative exTreemap) 220 120 := by
  have hpos : ∀ d ∈ exTreemap, 0 ≤ d.value := by
    intro d hd
    simp only [exTreemap, List.mem_cons, List.not_mem_nil, or_false] at hd
    rcases hd with rfl | rfl <;> norm_num
  exact ⟨hpos,
    dispatcher_passes_items_unfiltered 8 ChartKind.treemap exTreemap 220 120 hpos⟩

/-- C9 counterexample: with an EMPTY item list the render effect returns
before clearing, so the previous SVG content persists — two invocations with
the identical (empty-items) request but different prior contents produce
different results. -/
theorem empty_request_keeps_prior :
    updateSvg 8 (DiagramOutput.rects [⟨"A", 1, 0, 0, 1, 1⟩])
        ChartKind.treemap [] 100 100 ≠
      updateSvg 8 (DiagramOutput.rects []) ChartKind.treemap [] 100 100 := by
  simp [updateSvg]

/-- C9 amended: for every request with a NONEMPTY item list the render
effect is deterministic and stateless — the produced primitive sequence does
not depend on the prior SVG content; only the empty-items early return (which
skips the clearing step) leaks the previous invocation's output. -/
theorem dispatcher_stateless_nonempty (tau : ℚ) (p1 p2 : DiagramOutput)
    (kind : ChartKind) (data : List Datum) (w h : ℚ) (hne : data ≠ []) :
    updateSvg tau p1 kind data w h = updateSvg tau p2 kind data w h := by
  have hie : data.isEmpty = false := by
    cases data with
    | nil => exact absurd rfl hne
    | cons d l => rfl
  simp [updateSvg, hie]

/-- Witness for the amended C9 on `exTreemap` with two different priors. -/
theorem dispatcher_stateless_nonempty_witness :
    exTreemap ≠ [] ∧
      updateSvg 8 (DiagramOutput.rects [⟨"A", 1, 0, 0, 1, 1⟩])
          ChartKind.sunburst exTreemap 100 100
        = updateSvg 8 (DiagramOutput.wedges [])
            ChartKind.sunburst exTreemap 100 100 := by
  have hne : exTreemap ≠ [] := by simp [exTreemap]
  exact ⟨hne, dispatcher_stateless_nonempty 8 _ _ ChartKind.sunburst
    exTreemap 100 100 hne⟩

end AlulaCharts
